import Mathlib

/-!
Verification of the Needleman–Wunsch global-alignment core of biogo
(`align/nw_letters.go`, method `NW.alignLetters`).

The embedding models the scoring matrix as a list of rows of integers, the
flat dynamic-programming table `table []int` as a function `Nat → Int`
updated pointwise, the three construction loops as explicit fold-style
loops over index ranges (in the same iteration order as the Go code), and
the traceback `for` loop as a fuel-indexed recursion whose outcomes
distinguish a normal return, the `ErrMatrixNotSquare` early return, the
`panic` in the `default` branch of the traceback switch, and fuel
exhaustion (the Go loop has no fuel; a run that does not exhaust its fuel
coincides with the Go loop's behaviour).

Go `int` values are modelled as `Int`; grid indices, which the code keeps
non-negative throughout the loops, are modelled as `Nat`.
-/

namespace align

/-- Scoring matrix; Go `NW` is a `[][]int` (the type declaration lives in a
sibling file of the package; every use here is taken from `alignLetters`). -/
abbrev NW := List (List Int)

/-- Total model of the matrix access `a[x][y]`: `Int.toNat` clamps a
negative index to 0 and `getD` defaults an out-of-range read to 0, so this
is faithful to Go only where the access is in range. `avalChecked` below
performs Go's bounds checks — returning `none` exactly where Go panics —
and the construction-postcondition theorems are stated through it, so no
grid equation is asserted on an input where the Go code computes no grid. -/
def aval (a : NW) (x y : Int) : Int := (a.getD x.toNat []).getD y.toNat 0

/-- Matrix access `a[x][y]` with Go's bounds semantics: `none` models the
index-out-of-range panic on a negative or too-large row or column index. -/
def avalChecked (a : NW) (x y : Int) : Option Int :=
  if 0 ≤ x ∧ x.toNat < a.length then
    if 0 ≤ y ∧ y.toNat < (a.getD x.toNat []).length then
      some ((a.getD x.toNat []).getD y.toNat 0)
    else none
  else none

/-- Go `gap := len(a) - 1`. -/
def gapOf (a : NW) : Int := (a.length : Int) - 1

/-- Validation loop: `for _, row := range a { if len(row) != gap+1 { return ErrMatrixNotSquare } }`.
In Go `gap+1 = (len(a)-1)+1 = len(a)` in `int` arithmetic. -/
def notSquare (a : NW) : Bool := a.any fun row => row.length != a.length

/-- Modelled from the spec: the `max` helper and the `diag`/`up`/`left`
constants live in a sibling file of the package; §4.2 of the spec fixes the
interior cell value to the maximum of the three candidate scores. -/
def max3 (d u l : Int) : Int := max d (max u l)

/-- Pointwise update of the flat table, modelling `table[p] = v`. -/
def upd (t : Nat → Int) (p : Nat) (v : Int) : Nat → Int := fun q => if q = p then v else t q

/-- Counted `for` loop: `loopN body s n t` runs `body` at indices
`s, s+1, ..., s+n-1` in increasing order starting from table state `t`. -/
def loopN (body : Nat → (Nat → Int) → (Nat → Int)) : Nat → Nat → (Nat → Int) → (Nat → Int)
  | _, 0, t => t
  | s, n + 1, t => loopN body (s + 1) n (body s t)

/-- Body of `for j := range table[1:c] { table[j+1] = table[j] + a[gap][index[qSeq[j]]] }`. -/
def row0body (a : NW) (index : Char → Int) (qSeq : List Char) (j : Nat) (t : Nat → Int) :
    Nat → Int :=
  upd t (j + 1) (t j + aval a (gapOf a) (index (qSeq.getD j '?')))

/-- Body of `for i := 1; i < r; i++ { table[i*c] = table[(i-1)*c] + a[index[rSeq[i-1]]][gap] }`. -/
def col0body (a : NW) (index : Char → Int) (rSeq : List Char) (c : Nat) (i : Nat)
    (t : Nat → Int) : Nat → Int :=
  upd t (i * c) (t ((i - 1) * c) + aval a (index (rSeq.getD (i - 1) '?')) (gapOf a))

/-- Body of the interior double loop: on unrecognized symbols the Go code
`continue`s and the cell keeps its zero default; otherwise
`table[p] = max(diag, up, left)` with `p = i*c + j`. -/
def innerBody (a : NW) (index : Char → Int) (rSeq qSeq : List Char) (c : Nat) (i j : Nat)
    (t : Nat → Int) : Nat → Int :=
  let rVal := index (rSeq.getD (i - 1) '?')
  let qVal := index (qSeq.getD (j - 1) '?')
  if rVal < 0 ∨ qVal < 0 then t
  else
    let p := i * c + j
    upd t p (max3 (t (p - c - 1) + aval a rVal qVal)
                  (t (p - c) + aval a rVal (gapOf a))
                  (t (p - 1) + aval a (gapOf a) qVal))

/-- Outer row loop of the interior phase. -/
def outerBody (a : NW) (index : Char → Int) (rSeq qSeq : List Char) (c : Nat) (i : Nat)
    (t : Nat → Int) : Nat → Int :=
  loopN (innerBody a index rSeq qSeq c i) 1 qSeq.length t

/-- The finished dynamic-programming table (the Go `table` after the three
construction loops); `table := make([]int, r*c)` starts at all zeroes. -/
def mkTable (a : NW) (index : Char → Int) (rSeq qSeq : List Char) : Nat → Int :=
  let c := qSeq.length + 1
  let t0 : Nat → Int := fun _ => 0
  let t1 := loopN (row0body a index qSeq) 0 qSeq.length t0
  let t2 := loopN (col0body a index rSeq c) 1 rSeq.length t1
  loopN (outerBody a index rSeq qSeq c) 1 rSeq.length t2

/-- Counted loop whose body may panic: the first `none` aborts the loop,
modelling a Go runtime panic inside the loop body. -/
def loopNChecked (body : Nat → (Nat → Int) → Option (Nat → Int)) :
    Nat → Nat → (Nat → Int) → Option (Nat → Int)
  | _, 0, t => some t
  | s, n + 1, t =>
    match body s t with
    | none => none
    | some t' => loopNChecked body (s + 1) n t'

/-- `row0body` with Go's bounds checks on the access `a[gap][index[qSeq[j]]]`. -/
def row0bodyChecked (a : NW) (index : Char → Int) (qSeq : List Char) (j : Nat)
    (t : Nat → Int) : Option (Nat → Int) :=
  match avalChecked a (gapOf a) (index (qSeq.getD j '?')) with
  | none => none
  | some v => some (upd t (j + 1) (t j + v))

/-- `col0body` with Go's bounds checks on the access `a[index[rSeq[i-1]]][gap]`. -/
def col0bodyChecked (a : NW) (index : Char → Int) (rSeq : List Char) (c : Nat) (i : Nat)
    (t : Nat → Int) : Option (Nat → Int) :=
  match avalChecked a (index (rSeq.getD (i - 1) '?')) (gapOf a) with
  | none => none
  | some v => some (upd t (i * c) (t ((i - 1) * c) + v))

/-- `innerBody` with Go's bounds checks on its three matrix accesses; the
`continue` branch performs no access and cannot panic. -/
def innerBodyChecked (a : NW) (index : Char → Int) (rSeq qSeq : List Char) (c : Nat)
    (i j : Nat) (t : Nat → Int) : Option (Nat → Int) :=
  let rVal := index (rSeq.getD (i - 1) '?')
  let qVal := index (qSeq.getD (j - 1) '?')
  if rVal < 0 ∨ qVal < 0 then some t
  else
    match avalChecked a rVal qVal, avalChecked a rVal (gapOf a),
        avalChecked a (gapOf a) qVal with
    | some v1, some v2, some v3 =>
      let p := i * c + j
      some (upd t p (max3 (t (p - c - 1) + v1) (t (p - c) + v2) (t (p - 1) + v3)))
    | _, _, _ => none

/-- Outer row loop of the checked interior phase. -/
def outerBodyChecked (a : NW) (index : Char → Int) (rSeq qSeq : List Char) (c : Nat)
    (i : Nat) (t : Nat → Int) : Option (Nat → Int) :=
  loopNChecked (innerBodyChecked a index rSeq qSeq c i) 1 qSeq.length t

/-- The table construction with Go's panic semantics: `some` of the built
table when every matrix access of the three loops is in range, `none` —
no grid computed — as soon as one access would panic (in particular at the
first unrecognized symbol, whose index is negative). -/
def mkTableChecked (a : NW) (index : Char → Int) (rSeq qSeq : List Char) :
    Option (Nat → Int) :=
  let c := qSeq.length + 1
  let t0 : Nat → Int := fun _ => 0
  (loopNChecked (row0bodyChecked a index qSeq) 0 qSeq.length t0).bind fun t1 =>
    (loopNChecked (col0bodyChecked a index rSeq c) 1 rSeq.length t1).bind fun t2 =>
      loopNChecked (outerBodyChecked a index rSeq qSeq c) 1 rSeq.length t2

/-- Traceback directions; Go constants `diag`, `up`, `left` from a sibling
file of the package, used here only for equality comparison with `last`. -/
inductive Dir where
  | diag : Dir
  | up : Dir
  | left : Dir
  deriving DecidableEq, Repr

/-- Go `feature{start, end int}` (declared in a sibling file of the package;
the fields used by `alignLetters` are `start` and `end`). -/
structure feature where
  start : Nat
  «end» : Nat
  deriving DecidableEq, Repr

/-- Go `featPair{a, b feature; score int}`: an alignment segment pairing a
reference interval `a`, a query interval `b`, and a score. -/
structure featPair where
  a : feature
  b : feature
  score : Int
  deriving DecidableEq, Repr

/-- Mutable state of the traceback loop. -/
structure TBState where
  aln : List featPair
  score : Int
  last : Dir
  i : Nat
  j : Nat
  maxI : Nat
  maxJ : Nat
  deriving DecidableEq, Repr

/-- Result of a call: normal return, the `ErrMatrixNotSquare` return, the
`panic("align: nw internal error: no path at ...")`, or fuel exhaustion of
the modelled loop. -/
inductive Outcome where
  | ok : List featPair → Outcome
  | errMatrixNotSquare : Outcome
  | panicNoPath : Nat → Nat → Outcome
  | outOfFuel : Outcome
  deriving DecidableEq, Repr

/-- Closing the open segment: `append` of `{a: {i, maxI}, b: {j, maxJ}, score}`
followed by `maxI, maxJ = i, j` and `score = 0`. -/
def closeSeg (s : TBState) : TBState :=
  { s with aln := s.aln ++ [⟨⟨s.i, s.maxI⟩, ⟨s.j, s.maxJ⟩, s.score⟩],
           maxI := s.i, maxJ := s.j, score := 0 }

/-- First-match selection of the traceback switch
`switch table[p] { case diag-sum: ... case up-sum: ... case left-sum: ... }`:
Go evaluates the cases in source order, so `diag` beats `up` beats `left`. -/
def chooseDir (a : NW) (gap rVal qVal : Int) (t : Nat → Int) (p c : Nat) : Option Dir :=
  if t p = t (p - c - 1) + aval a rVal qVal then some Dir.diag
  else if t p = t (p - c) + aval a rVal gap then some Dir.up
  else if t p = t (p - 1) + aval a gap qVal then some Dir.left
  else none

/-- One switch case body: close the open segment when the direction changed,
accumulate the score delta, advance the cell, record the direction. -/
def applyStep (t : Nat → Int) (p c : Nat) (d : Dir) (s : TBState) : TBState :=
  let s' := if s.last ≠ d then closeSeg s else s
  match d with
  | Dir.diag =>
      { s' with score := s'.score + (t p - t (p - c - 1)),
                i := s'.i - 1, j := s'.j - 1, last := Dir.diag }
  | Dir.up =>
      { s' with score := s'.score + (t p - t (p - c)),
                i := s'.i - 1, last := Dir.up }
  | Dir.left =>
      { s' with score := s'.score + (t p - t (p - 1)),
                j := s'.j - 1, last := Dir.left }

/-- After the loop: emit the final open segment, then, when `i != j`, the
leading block `{a: {0, i}, b: {0, j}, score: table[i*c+j]}`, and reverse. -/
def finish (t : Nat → Int) (c : Nat) (s : TBState) : List featPair :=
  let aln := s.aln ++ [⟨⟨s.i, s.maxI⟩, ⟨s.j, s.maxJ⟩, s.score⟩]
  let aln := if s.i ≠ s.j then aln ++ [⟨⟨0, s.i⟩, ⟨0, s.j⟩, t (s.i * c + s.j)⟩] else aln
  aln.reverse

/-- The traceback loop `for i > 0 && j > 0 { ... }`, fuel-indexed. The
unrecognized-symbol branch is the Go `continue`, which does not advance
`(i, j)` and therefore only consumes fuel. -/
def traceLoop (a : NW) (gap : Int) (index : Char → Int) (rSeq qSeq : List Char)
    (t : Nat → Int) (c : Nat) : Nat → TBState → Outcome
  | 0, s => if 0 < s.i ∧ 0 < s.j then Outcome.outOfFuel else Outcome.ok (finish t c s)
  | fuel + 1, s =>
    if 0 < s.i ∧ 0 < s.j then
      let rVal := index (rSeq.getD (s.i - 1) '?')
      let qVal := index (qSeq.getD (s.j - 1) '?')
      if rVal < 0 ∨ qVal < 0 then
        traceLoop a gap index rSeq qSeq t c fuel s
      else
        match chooseDir a gap rVal qVal t (s.i * c + s.j) c with
        | some d => traceLoop a gap index rSeq qSeq t c fuel (applyStep t (s.i * c + s.j) c d s)
        | none => Outcome.panicNoPath s.i s.j
    else Outcome.ok (finish t c s)

/-- Initial traceback state: `score, last := 0, diag`, `i, j := r-1, c-1`,
`maxI, maxJ := i, j`. Note that `last` starts at the real direction `diag`,
not at a sentinel. -/
def initState (r c : Nat) : TBState :=
  { aln := [], score := 0, last := Dir.diag, i := r - 1, j := c - 1, maxI := r - 1, maxJ := c - 1 }

/-- The whole call `(a NW).alignLetters(rSeq, qSeq, alpha)`: matrix
validation, table construction, traceback. -/
def alignLetters (a : NW) (index : Char → Int) (rSeq qSeq : List Char) (fuel : Nat) : Outcome :=
  if notSquare a then Outcome.errMatrixNotSquare
  else
    let r := rSeq.length + 1
    let c := qSeq.length + 1
    let t := mkTable a index rSeq qSeq
    traceLoop a (gapOf a) index rSeq qSeq t c fuel (initState r c)

/-- Sum of the scores of a segment list. -/
def sumScores (l : List featPair) : Int := (l.map featPair.score).sum

/-- The segments of `l`, read left to right, tile the rectangle
`[lo, hi) × (lo', hi')`: each segment starts exactly where the previous one
ended in both coordinates, has nondecreasing endpoints, and the last one
ends at `(hi, hi')`. -/
def segsChain : Nat → Nat → List featPair → Nat → Nat → Prop
  | lo, lo', [], hi, hi' => lo = hi ∧ lo' = hi'
  | lo, lo', sg :: rest, hi, hi' =>
      sg.a.start = lo ∧ sg.b.start = lo' ∧ lo ≤ sg.a.«end» ∧ lo' ≤ sg.b.«end» ∧
        segsChain sg.a.«end» sg.b.«end» rest hi hi'

/-- Letter index for the alphabet {A, C, G, T}; unrecognized letters map to
the negative sentinel, as `alphabet.Index` does. -/
def idxACGT (ch : Char) : Int :=
  if ch = 'A' then 0 else if ch = 'C' then 1 else if ch = 'G' then 2
  else if ch = 'T' then 3 else -1

/-- Identity scoring matrix over {A, C, G, T}: match +1, mismatch 0, gap 0. -/
def matId : NW :=
  [[1, 0, 0, 0, 0], [0, 1, 0, 0, 0], [0, 0, 1, 0, 0], [0, 0, 0, 1, 0], [0, 0, 0, 0, 0]]

/-- Scoring matrix over {A, C, G, T}: match +1, mismatch 0, gap -1. -/
def matGap : NW :=
  [[1, 0, 0, 0, -1], [0, 1, 0, 0, -1], [0, 0, 1, 0, -1], [0, 0, 0, 1, -1],
   [-1, -1, -1, -1, -1]]

/-- All-zero 2-by-2 scoring matrix over the one-letter alphabet {A}. -/
def matZero : NW := [[0, 0], [0, 0]]

/-- Letter index for the one-letter alphabet {A}. -/
def idxA (ch : Char) : Int := if ch = 'A' then 0 else -1

theorem upd_eq (t : Nat → Int) (p : Nat) (v : Int) : upd t p v p = v := by
  simp [upd]

theorem upd_ne (t : Nat → Int) (p : Nat) (v : Int) (q : Nat) (h : q ≠ p) : upd t p v q = t q := by
  simp [upd, h]

theorem loopN_frame (body : Nat → (Nat → Int) → (Nat → Int)) (q : Nat) :
    ∀ (n s : Nat) (t : Nat → Int),
      (∀ k u, s ≤ k → k < s + n → body k u q = u q) →
      loopN body s n t q = t q := by
  intro n
  induction n with
  | zero => intro s t _; rfl
  | succ m ih =>
    intro s t h
    have step : loopN body s (m + 1) t = loopN body (s + 1) m (body s t) := rfl
    rw [step, ih (s + 1) (body s t) fun k u hk1 hk2 => h k u (by omega) (by omega),
      h s t le_rfl (by omega)]

theorem row0body_frame (a : NW) (index : Char → Int) (qSeq : List Char) (k : Nat)
    (u : Nat → Int) (q : Nat) (h : q ≠ k + 1) : row0body a index qSeq k u q = u q :=
  upd_ne _ _ _ _ h

theorem col0body_frame (a : NW) (index : Char → Int) (rSeq : List Char) (c k : Nat)
    (u : Nat → Int) (q : Nat) (h : q ≠ k * c) : col0body a index rSeq c k u q = u q :=
  upd_ne _ _ _ _ h

theorem innerBody_frame (a : NW) (index : Char → Int) (rSeq qSeq : List Char) (c i k : Nat)
    (u : Nat → Int) (q : Nat) (h : q ≠ i * c + k) :
    innerBody a index rSeq qSeq c i k u q = u q := by
  unfold innerBody
  split
  · rfl
  · exact upd_ne _ _ _ _ h

theorem outerBody_frame (a : NW) (index : Char → Int) (rSeq qSeq : List Char) (c k : Nat)
    (u : Nat → Int) (q : Nat) (h : ∀ j', 1 ≤ j' → j' ≤ qSeq.length → q ≠ k * c + j') :
    outerBody a index rSeq qSeq c k u q = u q :=
  loopN_frame _ _ _ _ _ fun j' u' h1 h2 =>
    innerBody_frame a index rSeq qSeq c k j' u' q (h j' h1 (by omega))

/-- Row-major positions are injective when column indices are below the width. -/
theorem pos_inj {c i j i' j' : Nat} (hj : j < c) (hj' : j' < c)
    (h : i * c + j = i' * c + j') : i = i' ∧ j = j' := by
  have hc : 0 < c := by omega
  have e1 : (j + i * c) / c = i := by
    rw [Nat.add_mul_div_right _ _ hc, Nat.div_eq_of_lt hj]; omega
  have e2 : (j' + i' * c) / c = i' := by
    rw [Nat.add_mul_div_right _ _ hc, Nat.div_eq_of_lt hj']; omega
  have hi : i = i' := by rw [← e1, ← e2]; congr 1; omega
  subst hi
  omega

theorem mul_pred (i c : Nat) (hi : 1 ≤ i) : i * c = (i - 1) * c + c := by
  cases i with
  | zero => omega
  | succ k => simp [Nat.succ_mul]

theorem row0_val (a : NW) (index : Char → Int) (qSeq : List Char) :
    ∀ (n s : Nat) (t : Nat → Int) (j : Nat), s ≤ j → j < s + n →
      loopN (row0body a index qSeq) s n t (j + 1) =
        loopN (row0body a index qSeq) s n t j +
          aval a (gapOf a) (index (qSeq.getD j '?')) := by
  intro n
  induction n with
  | zero => intro s t j h1 h2; omega
  | succ m ih =>
    intro s t j h1 h2
    have step : loopN (row0body a index qSeq) s (m + 1) t =
        loopN (row0body a index qSeq) (s + 1) m (row0body a index qSeq s t) := rfl
    rcases eq_or_lt_of_le h1 with rfl | hlt
    · rw [step,
        loopN_frame _ _ m (s + 1) _
          (fun k u hk1 _ => row0body_frame a index qSeq k u (s + 1) (by omega)),
        loopN_frame _ _ m (s + 1) _
          (fun k u hk1 _ => row0body_frame a index qSeq k u s (by omega)),
        show row0body a index qSeq s t (s + 1) = t s + aval a (gapOf a) (index (qSeq.getD s '?'))
          from upd_eq _ _ _,
        show row0body a index qSeq s t s = t s from upd_ne _ _ _ _ (by omega)]
    · rw [step]
      exact ih (s + 1) _ j (by omega) (by omega)

theorem col0_val (a : NW) (index : Char → Int) (rSeq : List Char) (c : Nat) (hc : 0 < c) :
    ∀ (n s : Nat) (t : Nat → Int) (i : Nat), 1 ≤ s → s ≤ i → i < s + n →
      loopN (col0body a index rSeq c) s n t (i * c) =
        loopN (col0body a index rSeq c) s n t ((i - 1) * c) +
          aval a (index (rSeq.getD (i - 1) '?')) (gapOf a) := by
  intro n
  induction n with
  | zero => intro s t i _ h1 h2; omega
  | succ m ih =>
    intro s t i hs h1 h2
    have step : loopN (col0body a index rSeq c) s (m + 1) t =
        loopN (col0body a index rSeq c) (s + 1) m (col0body a index rSeq c s t) := rfl
    have hmul : ∀ x y : Nat, x ≠ y → x * c ≠ y * c := fun x y hxy h =>
      hxy (Nat.eq_of_mul_eq_mul_right hc h)
    rcases eq_or_lt_of_le h1 with rfl | hlt
    · rw [step,
        loopN_frame _ _ m (s + 1) _
          (fun k u hk1 _ => col0body_frame a index rSeq c k u (s * c) (hmul _ _ (by omega))),
        loopN_frame _ _ m (s + 1) _
          (fun k u hk1 _ =>
            col0body_frame a index rSeq c k u ((s - 1) * c) (hmul _ _ (by omega))),
        show col0body a index rSeq c s t (s * c) =
            t ((s - 1) * c) + aval a (index (rSeq.getD (s - 1) '?')) (gapOf a)
          from upd_eq _ _ _,
        show col0body a index rSeq c s t ((s - 1) * c) = t ((s - 1) * c)
          from upd_ne _ _ _ _ (hmul _ _ (by omega))]
    · rw [step]
      exact ih (s + 1) _ i (by omega) (by omega) (by omega)

theorem inner_val (a : NW) (index : Char → Int) (rSeq qSeq : List Char) (c i : Nat)
    (hi : 1 ≤ i) :
    ∀ (n s : Nat) (t : Nat → Int) (j : Nat), 1 ≤ s → s ≤ j → j < s + n → s + n ≤ c →
      loopN (innerBody a index rSeq qSeq c i) s n t (i * c + j) =
        if index (rSeq.getD (i - 1) '?') < 0 ∨ index (qSeq.getD (j - 1) '?') < 0 then
          t (i * c + j)
        else
          max3 (t (i * c + j - c - 1) +
                aval a (index (rSeq.getD (i - 1) '?')) (index (qSeq.getD (j - 1) '?')))
               (t (i * c + j - c) + aval a (index (rSeq.getD (i - 1) '?')) (gapOf a))
               (loopN (innerBody a index rSeq qSeq c i) s n t (i * c + j - 1) +
                aval a (gapOf a) (index (qSeq.getD (j - 1) '?'))) := by
  intro n
  induction n with
  | zero => intro s t j _ h1 h2 _; omega
  | succ m ih =>
    intro s t j hs h1 h2 hn
    have hm : i * c = (i - 1) * c + c := mul_pred i c hi
    have step : loopN (innerBody a index rSeq qSeq c i) s (m + 1) t =
        loopN (innerBody a index rSeq qSeq c i) (s + 1) m
          (innerBody a index rSeq qSeq c i s t) := rfl
    rcases eq_or_lt_of_le h1 with rfl | hlt
    · rw [step,
        loopN_frame _ _ m (s + 1) _
          (fun k u hk1 _ => innerBody_frame a index rSeq qSeq c i k u _ (by omega)),
        loopN_frame _ _ m (s + 1) _
          (fun k u hk1 _ => innerBody_frame a index rSeq qSeq c i k u _ (by omega)),
        show innerBody a index rSeq qSeq c i s t (i * c + s - 1) = t (i * c + s - 1)
          from innerBody_frame a index rSeq qSeq c i s t _ (by omega)]
      by_cases hrq : index (rSeq.getD (i - 1) '?') < 0 ∨ index (qSeq.getD (s - 1) '?') < 0
      · simp only [innerBody, if_pos hrq]
      · simp only [innerBody, if_neg hrq]
        exact upd_eq _ _ _
    · rw [step,
        ih (s + 1) (innerBody a index rSeq qSeq c i s t) j (by omega) (by omega) (by omega)
          (by omega),
        innerBody_frame a index rSeq qSeq c i s t (i * c + j) (by omega),
        innerBody_frame a index rSeq qSeq c i s t (i * c + j - c - 1) (by omega),
        innerBody_frame a index rSeq qSeq c i s t (i * c + j - c) (by omega)]

theorem outer_val (a : NW) (index : Char → Int) (rSeq qSeq : List Char) (c : Nat)
    (hc : c = qSeq.length + 1) :
    ∀ (n s : Nat) (t : Nat → Int) (i j : Nat), 1 ≤ s → s ≤ i → i < s + n →
      1 ≤ j → j ≤ qSeq.length →
      loopN (outerBody a index rSeq qSeq c) s n t (i * c + j) =
        if index (rSeq.getD (i - 1) '?') < 0 ∨ index (qSeq.getD (j - 1) '?') < 0 then
          t (i * c + j)
        else
          max3 (loopN (outerBody a index rSeq qSeq c) s n t (i * c + j - c - 1) +
                aval a (index (rSeq.getD (i - 1) '?')) (index (qSeq.getD (j - 1) '?')))
               (loopN (outerBody a index rSeq qSeq c) s n t (i * c + j - c) +
                aval a (index (rSeq.getD (i - 1) '?')) (gapOf a))
               (loopN (outerBody a index rSeq qSeq c) s n t (i * c + j - 1) +
                aval a (gapOf a) (index (qSeq.getD (j - 1) '?'))) := by
  intro n
  induction n with
  | zero => intro s t i j _ h1 h2 _ _; omega
  | succ m ih =>
    intro s t i j hs h1 h2 hj1 hj2
    have hjc : j < c := by omega
    have step : loopN (outerBody a index rSeq qSeq c) s (m + 1) t =
        loopN (outerBody a index rSeq qSeq c) (s + 1) m
          (outerBody a index rSeq qSeq c s t) := rfl
    rcases eq_or_lt_of_le h1 with rfl | hlt
    · have hm : s * c = (s - 1) * c + c := mul_pred s c hs
      have e1 : s * c + j - c - 1 = (s - 1) * c + (j - 1) := by omega
      have e2 : s * c + j - c = (s - 1) * c + j := by omega
      have e3 : s * c + j - 1 = s * c + (j - 1) := by omega
      have fr : ∀ q q' col : Nat, q = q' * c + col → col < c → q' ≤ s → ∀ k u,
          s + 1 ≤ k → k < s + 1 + m → outerBody a index rSeq qSeq c k u q = u q := by
        intro q q' col hq hcol hq' k u hk1 _
        subst hq
        refine outerBody_frame a index rSeq qSeq c k u _ fun j' h1' h2' heq => ?_
        exact absurd (pos_inj hcol (show j' < c by omega) heq).1 (by omega)
      have fr2 : ∀ q q' col : Nat, q = q' * c + col → col < c → q' ≠ s →
          loopN (innerBody a index rSeq qSeq c s) 1 qSeq.length t q = t q := by
        intro q q' col hq hcol hne
        subst hq
        refine loopN_frame _ _ _ _ _ fun k u hk1 hk2 => ?_
        refine innerBody_frame a index rSeq qSeq c s k u _ fun heq => ?_
        exact absurd (pos_inj hcol (show k < c by omega) heq).1 hne
      rw [step,
        loopN_frame _ _ m (s + 1) _ (fr (s * c + j) s j rfl hjc le_rfl),
        loopN_frame _ _ m (s + 1) _ (fr (s * c + j - c - 1) (s - 1) (j - 1) e1 (by omega)
          (by omega)),
        loopN_frame _ _ m (s + 1) _ (fr (s * c + j - c) (s - 1) j e2 hjc (by omega)),
        loopN_frame _ _ m (s + 1) _ (fr (s * c + j - 1) s (j - 1) e3 (by omega) le_rfl)]
      simp only [outerBody]
      rw [inner_val a index rSeq qSeq c s hs qSeq.length 1 t j le_rfl hj1 (by omega)
          (by omega),
        fr2 (s * c + j - c - 1) (s - 1) (j - 1) e1 (by omega) (by omega),
        fr2 (s * c + j - c) (s - 1) j e2 hjc (by omega)]
    · rw [step,
        ih (s + 1) (outerBody a index rSeq qSeq c s t) i j (by omega) (by omega) (by omega)
          hj1 hj2,
        outerBody_frame a index rSeq qSeq c s t (i * c + j)
          (fun j' h1' h2' heq =>
            absurd (pos_inj hjc (show j' < c by omega) heq).1 (by omega))]

theorem mkTable_eq (a : NW) (index : Char → Int) (rSeq qSeq : List Char) :
    mkTable a index rSeq qSeq =
      loopN (outerBody a index rSeq qSeq (qSeq.length + 1)) 1 rSeq.length
        (loopN (col0body a index rSeq (qSeq.length + 1)) 1 rSeq.length
          (loopN (row0body a index qSeq) 0 qSeq.length (fun _ => 0))) := rfl

/-- Cell (0,0) of the table is never written and keeps its zero default. -/
theorem mkTable_zero (a : NW) (index : Char → Int) (rSeq qSeq : List Char) :
    mkTable a index rSeq qSeq 0 = 0 := by
  rw [mkTable_eq,
    loopN_frame _ _ _ _ _ (fun k u hk1 _ =>
      outerBody_frame a index rSeq qSeq _ k u 0 fun j' hj1' hj2' => by
        have := mul_pred k (qSeq.length + 1) hk1; omega),
    loopN_frame _ _ _ _ _ (fun k u hk1 _ =>
      col0body_frame a index rSeq _ k u 0 (by
        have := mul_pred k (qSeq.length + 1) hk1; omega)),
    loopN_frame _ _ _ _ _ (fun k u hk1 _ =>
      row0body_frame a index qSeq k u 0 (by omega))]

/-- Row 0 of the table accumulates `a[gap][index[qSeq[j-1]]]`. -/
theorem mkTable_row0 (a : NW) (index : Char → Int) (rSeq qSeq : List Char) (j : Nat)
    (hj1 : 1 ≤ j) (hj2 : j ≤ qSeq.length) :
    mkTable a index rSeq qSeq j =
      mkTable a index rSeq qSeq (j - 1) +
        aval a (gapOf a) (index (qSeq.getD (j - 1) '?')) := by
  obtain ⟨j', rfl⟩ : ∃ j', j = j' + 1 := ⟨j - 1, by omega⟩
  simp only [Nat.add_sub_cancel]
  have fr : ∀ q : Nat, q ≤ qSeq.length →
      mkTable a index rSeq qSeq q =
        loopN (row0body a index qSeq) 0 qSeq.length (fun _ => 0) q := by
    intro q hq
    rw [mkTable_eq,
      loopN_frame _ _ _ _ _ (fun k u hk1 _ =>
        outerBody_frame a index rSeq qSeq _ k u q fun j'' hj1'' hj2'' => by
          have := mul_pred k (qSeq.length + 1) hk1; omega),
      loopN_frame _ _ _ _ _ (fun k u hk1 _ =>
        col0body_frame a index rSeq _ k u q (by
          have := mul_pred k (qSeq.length + 1) hk1; omega))]
  rw [fr (j' + 1) (by omega), fr j' (by omega)]
  exact row0_val a index qSeq qSeq.length 0 _ j' (by omega) (by omega)

/-- Column 0 of the table accumulates `a[index[rSeq[i-1]]][gap]`. -/
theorem mkTable_col0 (a : NW) (index : Char → Int) (rSeq qSeq : List Char) (i : Nat)
    (hi1 : 1 ≤ i) (hi2 : i ≤ rSeq.length) :
    mkTable a index rSeq qSeq (i * (qSeq.length + 1)) =
      mkTable a index rSeq qSeq ((i - 1) * (qSeq.length + 1)) +
        aval a (index (rSeq.getD (i - 1) '?')) (gapOf a) := by
  obtain ⟨i', rfl⟩ : ∃ i', i = i' + 1 := ⟨i - 1, by omega⟩
  simp only [Nat.add_sub_cancel]
  have fr : ∀ q' : Nat,
      mkTable a index rSeq qSeq (q' * (qSeq.length + 1)) =
        loopN (col0body a index rSeq (qSeq.length + 1)) 1 rSeq.length
          (loopN (row0body a index qSeq) 0 qSeq.length (fun _ => 0))
          (q' * (qSeq.length + 1)) := by
    intro q'
    rw [mkTable_eq,
      loopN_frame _ _ _ _ _ (fun k u hk1 _ =>
        outerBody_frame a index rSeq qSeq _ k u _ fun j'' hj1'' hj2'' heq => by
          have h0 : q' * (qSeq.length + 1) + 0 = k * (qSeq.length + 1) + j'' := by omega
          exact absurd (pos_inj (by omega) (by omega) h0).2 (by omega))]
  have hv := col0_val a index rSeq (qSeq.length + 1) (by omega) rSeq.length 1
    (loopN (row0body a index qSeq) 0 qSeq.length (fun _ => 0)) (i' + 1)
    le_rfl (by omega) (by omega)
  simp only [Nat.add_sub_cancel] at hv
  rw [fr (i' + 1), fr i', hv]

/-- Interior cells: kept at zero on an unrecognized symbol, otherwise the
maximum of the three candidate scores. -/
theorem mkTable_interior (a : NW) (index : Char → Int) (rSeq qSeq : List Char) (i j : Nat)
    (hi1 : 1 ≤ i) (hi2 : i ≤ rSeq.length) (hj1 : 1 ≤ j) (hj2 : j ≤ qSeq.length) :
    mkTable a index rSeq qSeq (i * (qSeq.length + 1) + j) =
      if index (rSeq.getD (i - 1) '?') < 0 ∨ index (qSeq.getD (j - 1) '?') < 0 then 0
      else
        max3 (mkTable a index rSeq qSeq (i * (qSeq.length + 1) + j - (qSeq.length + 1) - 1) +
              aval a (index (rSeq.getD (i - 1) '?')) (index (qSeq.getD (j - 1) '?')))
             (mkTable a index rSeq qSeq (i * (qSeq.length + 1) + j - (qSeq.length + 1)) +
              aval a (index (rSeq.getD (i - 1) '?')) (gapOf a))
             (mkTable a index rSeq qSeq (i * (qSeq.length + 1) + j - 1) +
              aval a (gapOf a) (index (qSeq.getD (j - 1) '?'))) := by
  rw [mkTable_eq,
    outer_val a index rSeq qSeq (qSeq.length + 1) rfl rSeq.length 1 _ i j le_rfl hi1
      (by omega) hj1 hj2]
  by_cases hrq : index (rSeq.getD (i - 1) '?') < 0 ∨ index (qSeq.getD (j - 1) '?') < 0
  · rw [if_pos hrq, if_pos hrq,
      loopN_frame _ _ _ _ _ (fun k u hk1 _ =>
        col0body_frame a index rSeq _ k u _ fun heq => by
          have h0 : i * (qSeq.length + 1) + j = k * (qSeq.length + 1) + 0 := by omega
          exact absurd (pos_inj (by omega) (by omega) h0).2 (by omega)),
      loopN_frame _ _ _ _ _ (fun k u hk1 _ =>
        row0body_frame a index qSeq k u _ (by
          have := mul_pred i (qSeq.length + 1) hi1; omega))]
  · rw [if_neg hrq, if_neg hrq]

theorem sumScores_append (l : List featPair) (x : featPair) :
    sumScores (l ++ [x]) = sumScores l + x.score := by
  simp [sumScores]

theorem sumScores_reverse (l : List featPair) : sumScores l.reverse = sumScores l := by
  simp [sumScores, List.sum_reverse]

theorem closeSeg_sum (s : TBState) :
    sumScores (closeSeg s).aln + (closeSeg s).score = sumScores s.aln + s.score := by
  simp [closeSeg, sumScores_append]

theorem finish_sum (t : Nat → Int) (c : Nat) (s : TBState) (h0 : t 0 = 0)
    (hij : s.i = 0 ∨ s.j = 0) :
    sumScores (finish t c s) = sumScores s.aln + s.score + t (s.i * c + s.j) := by
  unfold finish
  by_cases hne : s.i ≠ s.j
  · simp only [if_pos hne]
    rw [sumScores_reverse, sumScores_append, sumScores_append]
  · simp only [if_neg hne]
    have hz : s.i = 0 ∧ s.j = 0 := by omega
    rw [sumScores_reverse, sumScores_append, hz.1, hz.2]
    simpa using h0

theorem applyStep_sum (t : Nat → Int) (c : Nat) (d : Dir) (s : TBState)
    (hi : 0 < s.i) (hj : 0 < s.j) :
    sumScores (applyStep t (s.i * c + s.j) c d s).aln +
        (applyStep t (s.i * c + s.j) c d s).score +
        t ((applyStep t (s.i * c + s.j) c d s).i * c +
           (applyStep t (s.i * c + s.j) c d s).j) =
      sumScores s.aln + s.score + t (s.i * c + s.j) := by
  have hm : s.i * c = (s.i - 1) * c + c := mul_pred s.i c hi
  have e1 : (s.i - 1) * c + (s.j - 1) = s.i * c + s.j - c - 1 := by omega
  have e2 : (s.i - 1) * c + s.j = s.i * c + s.j - c := by omega
  have e3 : s.i * c + (s.j - 1) = s.i * c + s.j - 1 := by omega
  cases d with
  | diag =>
    simp only [applyStep]
    split
    · simp only [closeSeg, sumScores_append]
      rw [e1]; omega
    · rw [e1]; omega
  | up =>
    simp only [applyStep]
    split
    · simp only [closeSeg, sumScores_append]
      rw [e2]; omega
    · rw [e2]; omega
  | left =>
    simp only [applyStep]
    split
    · simp only [closeSeg, sumScores_append]
      rw [e3]; omega
    · rw [e3]; omega

/-- Score conservation invariant of the traceback loop: on a normal return,
the emitted scores sum to the open score plus the stored score at the
current cell plus the scores already emitted. -/
theorem traceLoop_sum (a : NW) (gap : Int) (index : Char → Int) (rSeq qSeq : List Char)
    (t : Nat → Int) (c : Nat) (h0 : t 0 = 0) :
    ∀ (fuel : Nat) (s : TBState) (segs : List featPair),
      traceLoop a gap index rSeq qSeq t c fuel s = Outcome.ok segs →
      sumScores segs = sumScores s.aln + s.score + t (s.i * c + s.j) := by
  intro fuel
  induction fuel with
  | zero =>
    intro s segs h
    by_cases hc : 0 < s.i ∧ 0 < s.j
    · simp only [traceLoop, if_pos hc] at h
      cases h
    · simp only [traceLoop, if_neg hc] at h
      cases h
      exact finish_sum t c s h0 (by omega)
  | succ fuel ih =>
    intro s segs h
    by_cases hc : 0 < s.i ∧ 0 < s.j
    · simp only [traceLoop, if_pos hc] at h
      by_cases hrq : index (rSeq.getD (s.i - 1) '?') < 0 ∨
          index (qSeq.getD (s.j - 1) '?') < 0
      · rw [if_pos hrq] at h
        exact ih s segs h
      · rw [if_neg hrq] at h
        rcases hd : chooseDir a gap (index (rSeq.getD (s.i - 1) '?'))
            (index (qSeq.getD (s.j - 1) '?')) t (s.i * c + s.j) c with _ | d
        · rw [hd] at h; cases h
        · rw [hd] at h
          rw [ih (applyStep t (s.i * c + s.j) c d s) segs h]
          exact applyStep_sum t c d s hc.1 hc.2
    · simp only [traceLoop, if_neg hc] at h
      cases h
      exact finish_sum t c s h0 (by omega)

/-- The traceback loop never produces the matrix-validation error. -/
theorem traceLoop_ne_err (a : NW) (gap : Int) (index : Char → Int) (rSeq qSeq : List Char)
    (t : Nat → Int) (c : Nat) :
    ∀ (fuel : Nat) (s : TBState),
      traceLoop a gap index rSeq qSeq t c fuel s ≠ Outcome.errMatrixNotSquare := by
  intro fuel
  induction fuel with
  | zero =>
    intro s h
    simp only [traceLoop] at h
    split at h <;> cases h
  | succ fuel ih =>
    intro s h
    simp only [traceLoop] at h
    split at h
    · split at h
      · exact ih s h
      · split at h
        · exact ih _ h
        · cases h
    · cases h

theorem closeSeg_chain (s : TBState) (H H' : Nat)
    (hi : s.i ≤ s.maxI) (hj : s.j ≤ s.maxJ)
    (hch : segsChain s.maxI s.maxJ s.aln.reverse H H') :
    segsChain (closeSeg s).maxI (closeSeg s).maxJ (closeSeg s).aln.reverse H H' := by
  simp only [closeSeg, List.reverse_append, List.reverse_singleton, List.singleton_append]
  exact ⟨rfl, rfl, hi, hj, hch⟩

theorem applyStep_inv (t : Nat → Int) (p c : Nat) (d : Dir) (s : TBState) (H H' : Nat)
    (hi : s.i ≤ s.maxI) (hj : s.j ≤ s.maxJ)
    (hch : segsChain s.maxI s.maxJ s.aln.reverse H H') :
    (applyStep t p c d s).i ≤ (applyStep t p c d s).maxI ∧
    (applyStep t p c d s).j ≤ (applyStep t p c d s).maxJ ∧
    segsChain (applyStep t p c d s).maxI (applyStep t p c d s).maxJ
      (applyStep t p c d s).aln.reverse H H' := by
  have hcs := closeSeg_chain s H H' hi hj hch
  cases d with
  | diag =>
    simp only [applyStep]
    split
    · exact ⟨by simp [closeSeg], by simp [closeSeg], hcs⟩
    · exact ⟨by omega, by omega, hch⟩
  | up =>
    simp only [applyStep]
    split
    · exact ⟨by simp [closeSeg], by simp [closeSeg], hcs⟩
    · exact ⟨by omega, by omega, hch⟩
  | left =>
    simp only [applyStep]
    split
    · exact ⟨by simp [closeSeg], by simp [closeSeg], hcs⟩
    · exact ⟨by omega, by omega, hch⟩

theorem finish_chain (t : Nat → Int) (c : Nat) (s : TBState) (H H' : Nat)
    (hij : s.i = 0 ∨ s.j = 0)
    (hi : s.i ≤ s.maxI) (hj : s.j ≤ s.maxJ)
    (hch : segsChain s.maxI s.maxJ s.aln.reverse H H') :
    segsChain 0 0 (finish t c s) H H' := by
  unfold finish
  by_cases hne : s.i ≠ s.j
  · simp only [if_pos hne, List.reverse_append, List.reverse_singleton,
      List.singleton_append]
    exact ⟨rfl, rfl, Nat.zero_le _, Nat.zero_le _, rfl, rfl, hi, hj, hch⟩
  · simp only [if_neg hne, List.reverse_append, List.reverse_singleton,
      List.singleton_append]
    have hz : s.i = 0 ∧ s.j = 0 := by omega
    exact ⟨hz.1, hz.2, Nat.zero_le _, Nat.zero_le _, hz.1 ▸ hz.2 ▸ hch⟩

/-- Partition invariant of the traceback loop: on a normal return starting
from a state whose emitted segments tile `[maxI, H) × (maxJ, H')`, the
returned list tiles `[0, H) × (0, H')`. -/
theorem traceLoop_chain (a : NW) (gap : Int) (index : Char → Int) (rSeq qSeq : List Char)
    (t : Nat → Int) (c : Nat) (H H' : Nat) :
    ∀ (fuel : Nat) (s : TBState) (segs : List featPair),
      s.i ≤ s.maxI → s.j ≤ s.maxJ →
      segsChain s.maxI s.maxJ s.aln.reverse H H' →
      traceLoop a gap index rSeq qSeq t c fuel s = Outcome.ok segs →
      segsChain 0 0 segs H H' := by
  intro fuel
  induction fuel with
  | zero =>
    intro s segs hi hj hch h
    by_cases hc : 0 < s.i ∧ 0 < s.j
    · simp only [traceLoop, if_pos hc] at h; cases h
    · simp only [traceLoop, if_neg hc] at h
      cases h
      exact finish_chain t c s H H' (by omega) hi hj hch
  | succ fuel ih =>
    intro s segs hi hj hch h
    by_cases hc : 0 < s.i ∧ 0 < s.j
    · simp only [traceLoop, if_pos hc] at h
      by_cases hrq : index (rSeq.getD (s.i - 1) '?') < 0 ∨
          index (qSeq.getD (s.j - 1) '?') < 0
      · rw [if_pos hrq] at h
        exact ih s segs hi hj hch h
      · rw [if_neg hrq] at h
        rcases hd : chooseDir a gap (index (rSeq.getD (s.i - 1) '?'))
            (index (qSeq.getD (s.j - 1) '?')) t (s.i * c + s.j) c with _ | d
        · rw [hd] at h; cases h
        · rw [hd] at h
          obtain ⟨h1, h2, h3⟩ :=
            applyStep_inv t (s.i * c + s.j) c d s H H' hi hj hch
          exact ih _ segs h1 h2 h3 h
    · simp only [traceLoop, if_neg hc] at h
      cases h
      exact finish_chain t c s H H' (by omega) hi hj hch

theorem applyStep_i (t : Nat → Int) (p c : Nat) (d : Dir) (s : TBState) :
    (applyStep t p c d s).i = if d = Dir.left then s.i else s.i - 1 := by
  cases d <;> (simp only [applyStep]; split <;> rfl)

theorem applyStep_j (t : Nat → Int) (p c : Nat) (d : Dir) (s : TBState) :
    (applyStep t p c d s).j = if d = Dir.up then s.j else s.j - 1 := by
  cases d <;> (simp only [applyStep]; split <;> rfl)

/-- Fuel sufficiency: when every symbol of both sequences is recognized, the
loop with fuel at least `i + j` never exhausts it — every iteration either
strictly decreases `i + j` or aborts through the panic branch. -/
theorem traceLoop_fuel (a : NW) (gap : Int) (index : Char → Int) (rSeq qSeq : List Char)
    (t : Nat → Int) (c : Nat)
    (hr : ∀ ch ∈ rSeq, 0 ≤ index ch) (hq : ∀ ch ∈ qSeq, 0 ≤ index ch) :
    ∀ (fuel : Nat) (s : TBState), s.i + s.j ≤ fuel → s.i ≤ rSeq.length →
      s.j ≤ qSeq.length →
      traceLoop a gap index rSeq qSeq t c fuel s ≠ Outcome.outOfFuel := by
  intro fuel
  induction fuel with
  | zero =>
    intro s hf hir hjq h
    by_cases hc : 0 < s.i ∧ 0 < s.j
    · omega
    · simp only [traceLoop, if_neg hc] at h; cases h
  | succ fuel ih =>
    intro s hf hir hjq h
    by_cases hc : 0 < s.i ∧ 0 < s.j
    · simp only [traceLoop, if_pos hc] at h
      have hrv : 0 ≤ index (rSeq.getD (s.i - 1) '?') := by
        rw [List.getD_eq_getElem rSeq '?' (show s.i - 1 < rSeq.length by omega)]
        exact hr _ (List.getElem_mem _)
      have hqv : 0 ≤ index (qSeq.getD (s.j - 1) '?') := by
        rw [List.getD_eq_getElem qSeq '?' (show s.j - 1 < qSeq.length by omega)]
        exact hq _ (List.getElem_mem _)
      rw [if_neg (by omega)] at h
      rcases hd : chooseDir a gap (index (rSeq.getD (s.i - 1) '?'))
          (index (qSeq.getD (s.j - 1) '?')) t (s.i * c + s.j) c with _ | d
      · rw [hd] at h; cases h
      · rw [hd] at h
        refine ih (applyStep t (s.i * c + s.j) c d s) ?_ ?_ ?_ h
        · rw [applyStep_i, applyStep_j]; cases d <;> simp <;> omega
        · rw [applyStep_i]; cases d <;> simp <;> omega
        · rw [applyStep_j]; cases d <;> simp <;> omega
    · simp only [traceLoop, if_neg hc] at h; cases h

theorem notSquare_iff (a : NW) :
    notSquare a = true ↔ ∃ row ∈ a, row.length ≠ a.length := by
  simp [notSquare]

theorem alignLetters_eq_traceLoop (a : NW) (index : Char → Int) (rSeq qSeq : List Char)
    (fuel : Nat) (hval : notSquare a = false) :
    alignLetters a index rSeq qSeq fuel =
      traceLoop a (gapOf a) index rSeq qSeq (mkTable a index rSeq qSeq) (qSeq.length + 1)
        fuel (initState (rSeq.length + 1) (qSeq.length + 1)) := by
  unfold alignLetters
  rw [if_neg (by simp [hval])]

theorem square_rows (a : NW) (hval : notSquare a = false) :
    ∀ row ∈ a, row.length = a.length := by
  intro row hrow
  by_contra hne
  have h : notSquare a = true := (notSquare_iff a).2 ⟨row, hrow, hne⟩
  rw [h] at hval
  cases hval

theorem row_len (a : NW) (hval : notSquare a = false) (k : Nat) (hk : k < a.length) :
    (a.getD k []).length = a.length := by
  rw [List.getD_eq_getElem a [] hk]
  exact square_rows a hval _ (List.getElem_mem hk)

theorem avalChecked_some (a : NW) (x y : Int) (hx : 0 ≤ x) (hx' : x.toNat < a.length)
    (hy : 0 ≤ y) (hy' : y.toNat < (a.getD x.toNat []).length) :
    avalChecked a x y = some (aval a x y) := by
  unfold avalChecked aval
  rw [if_pos ⟨hx, hx'⟩, if_pos ⟨hy, hy'⟩]

theorem avalChecked_neg_x (a : NW) (x y : Int) (hx : x < 0) : avalChecked a x y = none := by
  unfold avalChecked
  rw [if_neg (by omega)]

theorem avalChecked_neg_y (a : NW) (x y : Int) (hy : y < 0) : avalChecked a x y = none := by
  unfold avalChecked
  split
  · rw [if_neg (by omega)]
  · rfl

theorem loopNChecked_some (bodyC : Nat → (Nat → Int) → Option (Nat → Int))
    (body : Nat → (Nat → Int) → (Nat → Int)) :
    ∀ (n s : Nat) (t : Nat → Int),
      (∀ k u, s ≤ k → k < s + n → bodyC k u = some (body k u)) →
      loopNChecked bodyC s n t = some (loopN body s n t) := by
  intro n
  induction n with
  | zero => intro s t _; rfl
  | succ m ih =>
    intro s t h
    have step : loopNChecked bodyC s (m + 1) t =
        match bodyC s t with
        | none => none
        | some t' => loopNChecked bodyC (s + 1) m t' := rfl
    rw [step, h s t le_rfl (by omega)]
    exact ih (s + 1) (body s t) fun k u h1 h2 => h k u (by omega) (by omega)

theorem loopNChecked_none (bodyC : Nat → (Nat → Int) → Option (Nat → Int)) :
    ∀ (n s : Nat) (t : Nat → Int) (k : Nat), s ≤ k → k < s + n →
      (∀ u, bodyC k u = none) →
      loopNChecked bodyC s n t = none := by
  intro n
  induction n with
  | zero => intro s t k h1 h2 _; omega
  | succ m ih =>
    intro s t k h1 h2 hbad
    have step : loopNChecked bodyC s (m + 1) t =
        match bodyC s t with
        | none => none
        | some t' => loopNChecked bodyC (s + 1) m t' := rfl
    rw [step]
    rcases eq_or_lt_of_le h1 with rfl | hlt
    · rw [hbad t]
    · cases hb : bodyC s t with
      | none => rfl
      | some t' => exact ih (s + 1) t' k (by omega) (by omega) hbad

theorem row0bodyChecked_some (a : NW) (index : Char → Int) (qSeq : List Char) (j : Nat)
    (t : Nat → Int)
    (h : avalChecked a (gapOf a) (index (qSeq.getD j '?')) =
      some (aval a (gapOf a) (index (qSeq.getD j '?')))) :
    row0bodyChecked a index qSeq j t = some (row0body a index qSeq j t) := by
  unfold row0bodyChecked row0body
  rw [h]

theorem row0bodyChecked_none (a : NW) (index : Char → Int) (qSeq : List Char) (j : Nat)
    (t : Nat → Int)
    (h : avalChecked a (gapOf a) (index (qSeq.getD j '?')) = none) :
    row0bodyChecked a index qSeq j t = none := by
  unfold row0bodyChecked
  rw [h]

theorem col0bodyChecked_some (a : NW) (index : Char → Int) (rSeq : List Char) (c i : Nat)
    (t : Nat → Int)
    (h : avalChecked a (index (rSeq.getD (i - 1) '?')) (gapOf a) =
      some (aval a (index (rSeq.getD (i - 1) '?')) (gapOf a))) :
    col0bodyChecked a index rSeq c i t = some (col0body a index rSeq c i t) := by
  unfold col0bodyChecked col0body
  rw [h]

theorem col0bodyChecked_none (a : NW) (index : Char → Int) (rSeq : List Char) (c i : Nat)
    (t : Nat → Int)
    (h : avalChecked a (index (rSeq.getD (i - 1) '?')) (gapOf a) = none) :
    col0bodyChecked a index rSeq c i t = none := by
  unfold col0bodyChecked
  rw [h]

theorem innerBodyChecked_some (a : NW) (index : Char → Int) (rSeq qSeq : List Char)
    (c i j : Nat) (t : Nat → Int)
    (h1 : avalChecked a (index (rSeq.getD (i - 1) '?')) (index (qSeq.getD (j - 1) '?')) =
      some (aval a (index (rSeq.getD (i - 1) '?')) (index (qSeq.getD (j - 1) '?'))))
    (h2 : avalChecked a (index (rSeq.getD (i - 1) '?')) (gapOf a) =
      some (aval a (index (rSeq.getD (i - 1) '?')) (gapOf a)))
    (h3 : avalChecked a (gapOf a) (index (qSeq.getD (j - 1) '?')) =
      some (aval a (gapOf a) (index (qSeq.getD (j - 1) '?')))) :
    innerBodyChecked a index rSeq qSeq c i j t =
      some (innerBody a index rSeq qSeq c i j t) := by
  unfold innerBodyChecked innerBody
  by_cases hrq : index (rSeq.getD (i - 1) '?') < 0 ∨ index (qSeq.getD (j - 1) '?') < 0
  · rw [if_pos hrq, if_pos hrq]
  · rw [if_neg hrq, if_neg hrq, h1, h2, h3]

theorem outerBodyChecked_some (a : NW) (index : Char → Int) (rSeq qSeq : List Char)
    (c i : Nat) (t : Nat → Int)
    (h : ∀ k u, 1 ≤ k → k < 1 + qSeq.length →
      innerBodyChecked a index rSeq qSeq c i k u =
        some (innerBody a index rSeq qSeq c i k u)) :
    outerBodyChecked a index rSeq qSeq c i t = some (outerBody a index rSeq qSeq c i t) :=
  loopNChecked_some _ _ qSeq.length 1 t h

/-- With a validated nonempty matrix and all symbol indices non-negative
and below the matrix size, every access of the three construction loops is
in range: the checked construction succeeds and computes exactly the table
of the total model. -/
theorem mkTableChecked_some (a : NW) (index : Char → Int) (rSeq qSeq : List Char)
    (hval : notSquare a = false) (hlen : 0 < a.length)
    (hr : ∀ ch ∈ rSeq, 0 ≤ index ch ∧ index ch < (a.length : Int))
    (hq : ∀ ch ∈ qSeq, 0 ≤ index ch ∧ index ch < (a.length : Int)) :
    mkTableChecked a index rSeq qSeq = some (mkTable a index rSeq qSeq) := by
  have hgap1 : 0 ≤ gapOf a := by unfold gapOf; omega
  have hgap2 : (gapOf a).toNat < a.length := by unfold gapOf; omega
  have hrlen : ∀ x : Int, 0 ≤ x → x.toNat < a.length →
      (a.getD x.toNat []).length = a.length := fun x _ hx' => row_len a hval x.toNat hx'
  have hqmem : ∀ j, j < qSeq.length → 0 ≤ index (qSeq.getD j '?') ∧
      index (qSeq.getD j '?') < (a.length : Int) := by
    intro j hj
    rw [List.getD_eq_getElem qSeq '?' hj]
    exact hq _ (List.getElem_mem hj)
  have hrmem : ∀ i, i < rSeq.length → 0 ≤ index (rSeq.getD i '?') ∧
      index (rSeq.getD i '?') < (a.length : Int) := by
    intro i hi
    rw [List.getD_eq_getElem rSeq '?' hi]
    exact hr _ (List.getElem_mem hi)
  have hq1 : ∀ j, j < qSeq.length →
      avalChecked a (gapOf a) (index (qSeq.getD j '?')) =
        some (aval a (gapOf a) (index (qSeq.getD j '?'))) := by
    intro j hj
    obtain ⟨h1, h2⟩ := hqmem j hj
    exact avalChecked_some a _ _ hgap1 hgap2 h1 (by rw [hrlen _ hgap1 hgap2]; omega)
  have hr1 : ∀ i, i < rSeq.length →
      avalChecked a (index (rSeq.getD i '?')) (gapOf a) =
        some (aval a (index (rSeq.getD i '?')) (gapOf a)) := by
    intro i hi
    obtain ⟨h1, h2⟩ := hrmem i hi
    have h2' : (index (rSeq.getD i '?')).toNat < a.length := by omega
    exact avalChecked_some a _ _ h1 h2' hgap1 (by rw [hrlen _ h1 h2']; omega)
  have hrq1 : ∀ i j, i < rSeq.length → j < qSeq.length →
      avalChecked a (index (rSeq.getD i '?')) (index (qSeq.getD j '?')) =
        some (aval a (index (rSeq.getD i '?')) (index (qSeq.getD j '?'))) := by
    intro i j hi hj
    obtain ⟨h1, h2⟩ := hrmem i hi
    obtain ⟨h3, h4⟩ := hqmem j hj
    have h2' : (index (rSeq.getD i '?')).toNat < a.length := by omega
    exact avalChecked_some a _ _ h1 h2' h3 (by rw [hrlen _ h1 h2']; omega)
  have s1 := loopNChecked_some (row0bodyChecked a index qSeq) (row0body a index qSeq)
    qSeq.length 0 (fun _ => 0)
    (fun k u hk1 hk2 => row0bodyChecked_some a index qSeq k u (hq1 k (by omega)))
  have s2 := loopNChecked_some (col0bodyChecked a index rSeq (qSeq.length + 1))
    (col0body a index rSeq (qSeq.length + 1)) rSeq.length 1
    (loopN (row0body a index qSeq) 0 qSeq.length (fun _ => 0))
    (fun k u hk1 hk2 => col0bodyChecked_some a index rSeq (qSeq.length + 1) k u
      (hr1 (k - 1) (by omega)))
  have s3 := loopNChecked_some (outerBodyChecked a index rSeq qSeq (qSeq.length + 1))
    (outerBody a index rSeq qSeq (qSeq.length + 1)) rSeq.length 1
    (loopN (col0body a index rSeq (qSeq.length + 1)) 1 rSeq.length
      (loopN (row0body a index qSeq) 0 qSeq.length (fun _ => 0)))
    (fun k u hk1 hk2 => outerBodyChecked_some a index rSeq qSeq (qSeq.length + 1) k u
      (fun k' u' hk1' hk2' => innerBodyChecked_some a index rSeq qSeq (qSeq.length + 1)
        k k' u' (hrq1 (k - 1) (k' - 1) (by omega) (by omega)) (hr1 (k - 1) (by omega))
        (hq1 (k' - 1) (by omega))))
  simp only [mkTableChecked, mkTable, s1, s2, s3, Option.some_bind]

/-- An unrecognized symbol in either sequence makes its border loop index
the matrix at a negative position: the checked construction aborts with no
grid, for every matrix. -/
theorem mkTableChecked_none (a : NW) (index : Char → Int) (rSeq qSeq : List Char)
    (h : (∃ ch ∈ rSeq, index ch < 0) ∨ (∃ ch ∈ qSeq, index ch < 0)) :
    mkTableChecked a index rSeq qSeq = none := by
  simp only [mkTableChecked]
  rcases h with ⟨ch, hmem, hneg⟩ | ⟨ch, hmem, hneg⟩
  · obtain ⟨n, hn, hch⟩ := List.mem_iff_getElem.mp hmem
    cases h1 : loopNChecked (row0bodyChecked a index qSeq) 0 qSeq.length (fun _ => 0) with
    | none => rfl
    | some t1 =>
      simp only [Option.some_bind]
      rw [loopNChecked_none (col0bodyChecked a index rSeq (qSeq.length + 1)) rSeq.length 1
          t1 (n + 1) (by omega) (by omega)
          (fun u => col0bodyChecked_none a index rSeq (qSeq.length + 1) (n + 1) u
            (by
              rw [show (n + 1) - 1 = n from rfl, List.getD_eq_getElem rSeq '?' hn, hch]
              exact avalChecked_neg_x a _ _ hneg)),
        Option.none_bind]
  · obtain ⟨n, hn, hch⟩ := List.mem_iff_getElem.mp hmem
    rw [loopNChecked_none (row0bodyChecked a index qSeq) qSeq.length 0 (fun _ => 0) n
        (by omega) (by omega)
        (fun u => row0bodyChecked_none a index qSeq n u
          (by
            rw [List.getD_eq_getElem qSeq '?' hn, hch]
            exact avalChecked_neg_y a _ _ hneg)),
      Option.none_bind]

/-- C1 counterexample: the claim asserts the border equations for every
index function, but at the unrecognized query symbol Z — whose index is
the negative sentinel — the Go border loop indexes row `gap` of the matrix
at -1 and panics with index out of range (nw_letters.go lines 89-91): no
grid is computed at all, so no computed grid satisfies
G[0][1] = G[0][0] + M[g][index(Z)]. -/
theorem c1_counterexample :
    idxACGT 'Z' = -1 ∧ mkTableChecked matId idxACGT [] ['Z'] = none :=
  ⟨by decide, rfl⟩

/-- C1 (amended): with a validated nonempty matrix and every symbol of both
sequences mapped to a non-negative index below the matrix size, the
construction performs no out-of-range access — it computes a grid — and
that grid satisfies G[0][0] = 0, the row-0 and column-0 gap accumulations,
and the interior three-way maximum; when instead some symbol of either
sequence is unrecognized (negative index), the border phase indexes the
matrix out of range and panics, computing no grid, so the interior
left-at-zero branch for unrecognized symbols is unreachable. -/
theorem c1_grid_recurrence :
    (∀ (a : NW) (index : Char → Int) (rSeq qSeq : List Char),
      notSquare a = false → 0 < a.length →
      (∀ ch ∈ rSeq, 0 ≤ index ch ∧ index ch < (a.length : Int)) →
      (∀ ch ∈ qSeq, 0 ≤ index ch ∧ index ch < (a.length : Int)) →
      mkTableChecked a index rSeq qSeq = some (mkTable a index rSeq qSeq)
      ∧ mkTable a index rSeq qSeq 0 = 0
      ∧ (∀ j, 1 ≤ j → j ≤ qSeq.length →
          mkTable a index rSeq qSeq j =
            mkTable a index rSeq qSeq (j - 1) +
              aval a (gapOf a) (index (qSeq.getD (j - 1) '?')))
      ∧ (∀ i, 1 ≤ i → i ≤ rSeq.length →
          mkTable a index rSeq qSeq (i * (qSeq.length + 1)) =
            mkTable a index rSeq qSeq ((i - 1) * (qSeq.length + 1)) +
              aval a (index (rSeq.getD (i - 1) '?')) (gapOf a))
      ∧ (∀ i j, 1 ≤ i → i ≤ rSeq.length → 1 ≤ j → j ≤ qSeq.length →
          mkTable a index rSeq qSeq (i * (qSeq.length + 1) + j) =
            max3 (mkTable a index rSeq qSeq
                    (i * (qSeq.length + 1) + j - (qSeq.length + 1) - 1) +
                  aval a (index (rSeq.getD (i - 1) '?')) (index (qSeq.getD (j - 1) '?')))
                 (mkTable a index rSeq qSeq
                    (i * (qSeq.length + 1) + j - (qSeq.length + 1)) +
                  aval a (index (rSeq.getD (i - 1) '?')) (gapOf a))
                 (mkTable a index rSeq qSeq (i * (qSeq.length + 1) + j - 1) +
                  aval a (gapOf a) (index (qSeq.getD (j - 1) '?')))))
    ∧ (∀ (a : NW) (index : Char → Int) (rSeq qSeq : List Char),
      ((∃ ch ∈ rSeq, index ch < 0) ∨ (∃ ch ∈ qSeq, index ch < 0)) →
      mkTableChecked a index rSeq qSeq = none) := by
  refine ⟨fun a index rSeq qSeq hval hlen hr hq => ?_,
    fun a index rSeq qSeq h => mkTableChecked_none a index rSeq qSeq h⟩
  refine ⟨mkTableChecked_some a index rSeq qSeq hval hlen hr hq,
    mkTable_zero a index rSeq qSeq,
    fun j hj1 hj2 => mkTable_row0 a index rSeq qSeq j hj1 hj2,
    fun i hi1 hi2 => mkTable_col0 a index rSeq qSeq i hi1 hi2,
    fun i j hi1 hi2 hj1 hj2 => ?_⟩
  have hrv : 0 ≤ index (rSeq.getD (i - 1) '?') := by
    rw [List.getD_eq_getElem rSeq '?' (show i - 1 < rSeq.length by omega)]
    exact (hr _ (List.getElem_mem _)).1
  have hqv : 0 ≤ index (qSeq.getD (j - 1) '?') := by
    rw [List.getD_eq_getElem qSeq '?' (show j - 1 < qSeq.length by omega)]
    exact (hq _ (List.getElem_mem _)).1
  rw [mkTable_interior a index rSeq qSeq i j hi1 hi2 hj1 hj2, if_neg (by omega)]

theorem c1_grid_recurrence_witness :
    notSquare matId = false ∧
    mkTableChecked matId idxACGT ['A'] ['A'] = some (mkTable matId idxACGT ['A'] ['A']) :=
  ⟨by decide,
    (c1_grid_recurrence.1 matId idxACGT ['A'] ['A'] (by decide) (by decide) (by decide)
      (by decide)).1⟩

/-- C2: Tie-break determinism: the traceback direction choice tries the
diagonal candidate first, then up, then left, so diag wins any tie with up
or left and up wins any tie with left; concretely, on the all-zero matrix
the diagonal and up candidates both reproduce the stored value at cell
(1,1), the diagonal move is chosen, and the result has the diagonal
segment boundaries [0,1)×[0,1). -/
theorem c2_tiebreak :
    (∀ (a : NW) (gap rVal qVal : Int) (t : Nat → Int) (p c : Nat),
        t p = t (p - c - 1) + aval a rVal qVal →
        chooseDir a gap rVal qVal t p c = some Dir.diag)
    ∧ (∀ (a : NW) (gap rVal qVal : Int) (t : Nat → Int) (p c : Nat),
        t p ≠ t (p - c - 1) + aval a rVal qVal →
        t p = t (p - c) + aval a rVal gap →
        chooseDir a gap rVal qVal t p c = some Dir.up)
    ∧ mkTable matZero idxA ['A'] ['A'] 3 =
        mkTable matZero idxA ['A'] ['A'] 0 + aval matZero 0 0
    ∧ mkTable matZero idxA ['A'] ['A'] 3 =
        mkTable matZero idxA ['A'] ['A'] 1 + aval matZero 0 (gapOf matZero)
    ∧ alignLetters matZero idxA ['A'] ['A'] 2 = Outcome.ok [⟨⟨0, 1⟩, ⟨0, 1⟩, 0⟩] := by
  refine ⟨?_, ?_, by decide, by decide, by decide⟩
  · intro a gap rVal qVal t p c h
    unfold chooseDir
    rw [if_pos h]
  · intro a gap rVal qVal t p c h1 h2
    unfold chooseDir
    rw [if_neg h1, if_pos h2]

theorem c2_tiebreak_witness :
    mkTable matZero idxA ['A'] ['A'] 3 =
      mkTable matZero idxA ['A'] ['A'] (3 - 2 - 1) + aval matZero 0 0 ∧
    chooseDir matZero (gapOf matZero) 0 0 (mkTable matZero idxA ['A'] ['A']) 3 2 =
      some Dir.diag :=
  ⟨by decide,
    c2_tiebreak.1 matZero (gapOf matZero) 0 0 (mkTable matZero idxA ['A'] ['A']) 3 2
      (by decide)⟩

/-- C5 counterexample: with the {A,C,G,T} alphabet (k = 4), a square 2×2
matrix has row count 2 ≠ k+1 = 5, yet the call does not fail with the
matrix error — the row count is never compared with the alphabet size. -/
theorem c5_counterexample :
    (2 : Nat) ≠ 4 + 1 ∧
    alignLetters [[1, 2], [3, 4]] idxACGT [] [] 5 = Outcome.ok [⟨⟨0, 0⟩, ⟨0, 0⟩, 0⟩] ∧
    alignLetters [[1, 2], [3, 4]] idxACGT [] [] 5 ≠ Outcome.errMatrixNotSquare :=
  ⟨by decide, by decide, by decide⟩

/-- C5 (amended): the call fails with the distinct matrix-not-square error
iff some row's length differs from the declared row count; whether the row
count equals the alphabet size plus one is not checked, and on the failure
the result is produced before any table work. -/
theorem c5_validation_iff (a : NW) (index : Char → Int) (rSeq qSeq : List Char)
    (fuel : Nat) :
    alignLetters a index rSeq qSeq fuel = Outcome.errMatrixNotSquare ↔
      ∃ row ∈ a, row.length ≠ a.length := by
  unfold alignLetters
  by_cases hn : notSquare a
  · simp only [if_pos (by simp [hn] : (notSquare a : Prop))]
    exact ⟨fun _ => (notSquare_iff a).1 hn, fun _ => trivial⟩
  · rw [if_neg (by simp [Bool.not_eq_true] at hn ⊢; exact hn)]
    constructor
    · intro h
      exact absurd h (traceLoop_ne_err a (gapOf a) index rSeq qSeq _ _ fuel _)
    · intro hex
      exact absurd ((notSquare_iff a).2 hex) (by simpa using hn)

/-- C6 counterexample: `last` is initialized to the real direction `diag`,
not to a sentinel distinct from the three directions: in the ACGT
self-alignment the traceback makes four moves, the first of them diagonal,
and no empty segment {[4,4),[4,4),0} appears in the result. -/
theorem c6_counterexample :
    alignLetters matId idxACGT ['A', 'C', 'G', 'T'] ['A', 'C', 'G', 'T'] 8 =
      Outcome.ok [⟨⟨0, 4⟩, ⟨0, 4⟩, 4⟩] ∧
    (⟨⟨4, 4⟩, ⟨4, 4⟩, 0⟩ : featPair) ∉ [(⟨⟨0, 4⟩, ⟨0, 4⟩, (4 : Int)⟩ : featPair)] :=
  ⟨by decide, by decide⟩

/-- C6 (amended): the traceback starts with `last = diag` — a real
direction, not a sentinel — so the first chosen move closes the initial
open segment, emitting the empty segment {[r,r),[c,c),0} (grid coordinates
r-1, c-1 here), iff that move is not the diagonal one. -/
theorem c6_first_move (t : Nat → Int) (p c' : Nat) (d : Dir) (r c : Nat) :
    (initState r c).last = Dir.diag ∧
    (applyStep t p c' d (initState r c)).aln =
      (if d = Dir.diag then [] else [⟨⟨r - 1, r - 1⟩, ⟨c - 1, c - 1⟩, 0⟩]) := by
  refine ⟨rfl, ?_⟩
  cases d with
  | diag => simp [applyStep, initState]
  | up => simp [applyStep, initState, closeSeg]
  | left => simp [applyStep, initState, closeSeg]

/-- C7: self-alignment of ACGT against itself over {A,C,G,T} with the
identity matrix (match +1, mismatch 0, gap 0) returns exactly one segment,
reference [0,4), query [0,4), score 4. -/
theorem c7_self_alignment :
    alignLetters matId idxACGT ['A', 'C', 'G', 'T'] ['A', 'C', 'G', 'T'] 8 =
      Outcome.ok [⟨⟨0, 4⟩, ⟨0, 4⟩, 4⟩] := by decide

/-- C8: when in a live traceback state no candidate reproduces the stored
value at the current cell, the operation panics, and in particular never
returns a normal segment list. -/
theorem c8_no_path_fatal (a : NW) (gap : Int) (index : Char → Int) (rSeq qSeq : List Char)
    (t : Nat → Int) (c fuel : Nat) (s : TBState)
    (hij : 0 < s.i ∧ 0 < s.j)
    (hrq : ¬(index (rSeq.getD (s.i - 1) '?') < 0 ∨ index (qSeq.getD (s.j - 1) '?') < 0))
    (hnone : chooseDir a gap (index (rSeq.getD (s.i - 1) '?'))
        (index (qSeq.getD (s.j - 1) '?')) t (s.i * c + s.j) c = none) :
    traceLoop a gap index rSeq qSeq t c (fuel + 1) s = Outcome.panicNoPath s.i s.j ∧
    ∀ segs, traceLoop a gap index rSeq qSeq t c (fuel + 1) s ≠ Outcome.ok segs := by
  have h : traceLoop a gap index rSeq qSeq t c (fuel + 1) s =
      Outcome.panicNoPath s.i s.j := by
    simp only [traceLoop, if_pos hij, if_neg hrq, hnone]
  exact ⟨h, fun segs hok => by rw [h] at hok; cases hok⟩

theorem c8_no_path_fatal_witness :
    chooseDir [[0]] (gapOf [[0]]) (idxA (['A'].getD 0 '?')) (idxA (['A'].getD 0 '?'))
        (fun p => (p : Int)) 3 2 = none ∧
    traceLoop [[0]] (gapOf [[0]]) idxA ['A'] ['A'] (fun p => (p : Int)) 2 1
        ⟨[], 0, Dir.diag, 1, 1, 1, 1⟩ = Outcome.panicNoPath 1 1 :=
  ⟨by decide,
    (c8_no_path_fatal [[0]] (gapOf [[0]]) idxA ['A'] ['A'] (fun p => (p : Int)) 2 0
      ⟨[], 0, Dir.diag, 1, 1, 1, 1⟩ (by decide) (by decide) (by decide)).1⟩

/-- C9: when every symbol of both sequences maps to a non-negative index
and the matrix passes validation, the call with fuel at least the sum of
the sequence lengths terminates normally or panics, but never exhausts its
fuel: every live iteration strictly decreases i + j, and the
non-advancing unrecognized-symbol branch is never taken. -/
theorem c9_termination (a : NW) (index : Char → Int) (rSeq qSeq : List Char)
    (hval : notSquare a = false)
    (hr : ∀ ch ∈ rSeq, 0 ≤ index ch) (hq : ∀ ch ∈ qSeq, 0 ≤ index ch)
    (fuel : Nat) (hfuel : rSeq.length + qSeq.length ≤ fuel) :
    alignLetters a index rSeq qSeq fuel ≠ Outcome.outOfFuel := by
  rw [alignLetters_eq_traceLoop a index rSeq qSeq fuel hval]
  refine traceLoop_fuel a (gapOf a) index rSeq qSeq _ _ hr hq fuel
    (initState (rSeq.length + 1) (qSeq.length + 1)) ?_ ?_ ?_
  · simp [initState]; omega
  · simp [initState]
  · simp [initState]

theorem c9_termination_witness :
    notSquare matId = false ∧
    alignLetters matId idxACGT ['A', 'C', 'G', 'T'] ['A', 'C', 'G', 'T'] 8 ≠
      Outcome.outOfFuel :=
  ⟨by decide,
    c9_termination matId idxACGT ['A', 'C', 'G', 'T'] ['A', 'C', 'G', 'T'] (by decide)
      (by decide) (by decide) 8 (by decide)⟩

/-- C10: empty segments can appear in the output: aligning reference AC
against query A (match +1, mismatch 0, gap -1) succeeds with all symbols
recognized and the result contains the segment {[2,2),[1,1),0}, whose two
intervals are empty and whose score is 0, emitted because the first
traceback move from (r,c) = (2,1) is the up move, not the diagonal one. -/
theorem c10_empty_segment :
    alignLetters matGap idxACGT ['A', 'C'] ['A'] 3 =
      Outcome.ok [⟨⟨0, 1⟩, ⟨0, 1⟩, 1⟩, ⟨⟨1, 2⟩, ⟨1, 1⟩, -1⟩, ⟨⟨2, 2⟩, ⟨1, 1⟩, 0⟩] ∧
    (∃ sg ∈ [(⟨⟨0, 1⟩, ⟨0, 1⟩, 1⟩ : featPair), ⟨⟨1, 2⟩, ⟨1, 1⟩, -1⟩, ⟨⟨2, 2⟩, ⟨1, 1⟩, 0⟩],
        sg.a.start = sg.a.«end» ∧ sg.b.start = sg.b.«end» ∧ sg.score = 0) ∧
    chooseDir matGap (gapOf matGap) (idxACGT 'C') (idxACGT 'A')
        (mkTable matGap idxACGT ['A', 'C'] ['A']) 5 2 = some Dir.up :=
  ⟨by decide, by decide, by decide⟩

/-- C3: score conservation: on every validated, fully recognized input on
which the call returns normally, the grid's final cell equals the sum of
the scores of all returned segments, the leading block included. -/
theorem c3_score_conservation (a : NW) (index : Char → Int) (rSeq qSeq : List Char)
    (fuel : Nat) (segs : List featPair)
    (hval : notSquare a = false)
    (hr : ∀ ch ∈ rSeq, 0 ≤ index ch) (hq : ∀ ch ∈ qSeq, 0 ≤ index ch)
    (hok : alignLetters a index rSeq qSeq fuel = Outcome.ok segs) :
    sumScores segs =
      mkTable a index rSeq qSeq (rSeq.length * (qSeq.length + 1) + qSeq.length) := by
  rw [alignLetters_eq_traceLoop a index rSeq qSeq fuel hval] at hok
  have h := traceLoop_sum a (gapOf a) index rSeq qSeq (mkTable a index rSeq qSeq)
    (qSeq.length + 1) (mkTable_zero a index rSeq qSeq) fuel
    (initState (rSeq.length + 1) (qSeq.length + 1)) segs hok
  simpa [initState, sumScores] using h

theorem c3_score_conservation_witness :
    notSquare matId = false ∧
    sumScores [(⟨⟨0, 4⟩, ⟨0, 4⟩, 4⟩ : featPair)] =
      mkTable matId idxACGT ['A', 'C', 'G', 'T'] ['A', 'C', 'G', 'T'] (4 * 5 + 4) :=
  ⟨by decide,
    c3_score_conservation matId idxACGT ['A', 'C', 'G', 'T'] ['A', 'C', 'G', 'T'] 8
      [⟨⟨0, 4⟩, ⟨0, 4⟩, 4⟩] (by decide) (by decide) (by decide) (by decide)⟩

/-- C4: segment partition: on every validated, fully recognized input on
which the call returns normally, the returned segments, read left to
right, start at (0,0), are contiguous and monotone in both coordinates,
and tile [0,r) and [0,c) exactly once. -/
theorem c4_segment_partition (a : NW) (index : Char → Int) (rSeq qSeq : List Char)
    (fuel : Nat) (segs : List featPair)
    (hval : notSquare a = false)
    (hr : ∀ ch ∈ rSeq, 0 ≤ index ch) (hq : ∀ ch ∈ qSeq, 0 ≤ index ch)
    (hok : alignLetters a index rSeq qSeq fuel = Outcome.ok segs) :
    segsChain 0 0 segs rSeq.length qSeq.length := by
  rw [alignLetters_eq_traceLoop a index rSeq qSeq fuel hval] at hok
  refine traceLoop_chain a (gapOf a) index rSeq qSeq (mkTable a index rSeq qSeq)
    (qSeq.length + 1) rSeq.length qSeq.length fuel
    (initState (rSeq.length + 1) (qSeq.length + 1)) segs ?_ ?_ ?_ hok
  · simp [initState]
  · simp [initState]
  · simp [initState, segsChain]

theorem c4_segment_partition_witness :
    notSquare matId = false ∧
    segsChain 0 0 [(⟨⟨0, 4⟩, ⟨0, 4⟩, 4⟩ : featPair)] 4 4 :=
  ⟨by decide,
    c4_segment_partition matId idxACGT ['A', 'C', 'G', 'T'] ['A', 'C', 'G', 'T'] 8
      [⟨⟨0, 4⟩, ⟨0, 4⟩, 4⟩] (by decide) (by decide) (by decide) (by decide)⟩

end align
